import Mathlib

/-!
# Runtime support library `frontend/std.cc`

A shallow embedding of the four `extern "C"` primitives of `src/frontend/std.cc`
(`print_person`, `create_person`, `println`, `index_arr`) together with the
`struct Person` they share, and the properties of them that the specification
states.

Modelling conventions.

* A C `int` value is an `Int`.  No primitive performs arithmetic on its `int`
  arguments, so no wrap-around can occur; every theorem below is proved for all
  of `Int` and therefore in particular for the values of a 32-bit `int`.
* The standard output stream is the `String` of all characters written so far.
  A primitive that may write takes the stream before the call and returns the
  stream after the call.
* `printf` is the C library routine; its model `printf` below interprets the
  format string character by character and renders each `%d` conversion with
  `fmt_d` (the `[-]ddd` style of the C standard, no padding).
* `index_arr` reads through a raw pointer.  The block the pointer addresses is
  a `List Int`; an access outside the block is undefined behaviour in C and is
  `none` in the model.
-/

namespace Skipp

/-! ## The C library: `printf` with `%d` conversions -/

/-- The standard output stream: every character written so far. -/
abbrev Stdout := String

/-- The character of a decimal digit `d < 10`. -/
def digitOf (d : Nat) : Char := Char.ofNat (48 + d)

/-- Decimal digits of `n`, most significant first, put in front of `acc`.
The first argument bounds the number of digits produced. -/
def utoa : Nat → Nat → List Char → List Char
  | 0, _, acc => acc
  | fuel + 1, n, acc =>
    if n < 10 then digitOf n :: acc
    else utoa fuel (n / 10) (digitOf (n % 10) :: acc)

/-- The `%d` conversion of `printf`: a minus sign for a negative value, then
the decimal digits of the magnitude without leading zeros (`0` renders as
the single digit `0`). -/
def fmt_d (n : Int) : List Char :=
  if n < 0 then '-' :: utoa (n.natAbs + 1) n.natAbs []
  else utoa (n.natAbs + 1) n.natAbs []

/-- Expansion of a format string against its arguments: ordinary characters
are copied, and each `%d` directive is replaced by the rendering of the next
argument.  `%d` is the only directive the program uses.  (A `%d` with no
argument left is undefined behaviour in C; the model copies it.  No call in
this program has that shape.) -/
def expand : List Char → List Int → List Char
  | [], _ => []
  | '%' :: 'd' :: rest, a :: args => fmt_d a ++ expand rest args
  | c :: rest, args => c :: expand rest args

/-- The call `printf(fmt, args...)`: the expanded text is appended to the
standard output. -/
def printf (fmt : String) (args : List Int) (out : Stdout) : Stdout :=
  out ++ String.mk (expand fmt.data args)

/-- The integer promotion of a `bool` passed to a variadic function:
`true` is `1` and `false` is `0`. -/
def boolToInt (b : Bool) : Int := if b then 1 else 0

/-! ## The record and the four primitives -/

/-- The record `struct Person { int age; bool alive; }`. -/
structure Person where
  age : Int
  alive : Bool
  deriving DecidableEq

/-- The primitive `void print_person(struct Person person)`: two `printf` calls. -/
def print_person (person : Person) (out : Stdout) : Stdout :=
  let out1 := printf "alive person? %d\n" [boolToInt person.alive] out
  printf "Age: %d %d\n" [person.age, boolToInt person.alive] out1

/-- The primitive `struct Person create_person(int age, bool alive)`: builds
the record positionally, prints it, returns it. -/
def create_person (age : Int) (alive : Bool) (out : Stdout) : Person × Stdout :=
  let p : Person := ⟨age, alive⟩
  let out1 := print_person p out
  (p, out1)

/-- The primitive `int println(int n)`: prints `n` and a newline, returns `n`. -/
def println (n : Int) (out : Stdout) : Int × Stdout :=
  let out1 := printf "%d\n" [n] out
  (n, out1)

/-- The primitive `int index_arr(int arr[], int i)`: the read `arr[i]`.
The result is the value read, the block after the call and the standard
output after the call; `none` stands for the undefined behaviour of a read
outside the block. -/
def index_arr (arr : List Int) (i : Int) (out : Stdout) : Option (Int × List Int × Stdout) :=
  if i < 0 then none
  else
    match arr[i.toNat]? with
    | none => none
    | some v => some (v, arr, out)

/-- The evaluation of the expression `print_person(create_person(a, b))`:
the argument is evaluated first, then the outer call runs on the stream the
argument left behind. -/
def print_created (a : Int) (b : Bool) (out : Stdout) : Stdout :=
  let r := create_person a b out
  print_person r.1 r.2

/-- The text contract of the specification for the composite printer:
line 1 is `alive person? <v>`, line 2 is `Age: <age> <v>`, where `<v>` is `1`
or `0` and `<age>` is the signed decimal rendering of the age. -/
def spec_person_text (p : Person) : String :=
  let v := if p.alive then "1" else "0"
  "alive person? " ++ v ++ "\n" ++ "Age: " ++ toString p.age ++ " " ++ v ++ "\n"

/-- The number of line terminators in a text. -/
def lineCount (t : String) : Nat := t.data.count '\n'

/-! ## Layout of the record

The declaration of `struct Person` fixes the members and their order.  Where
each member lies in the object is the business of the compiler: members are
placed in declaration order, each at the first offset past the previous member
that satisfies its alignment.  The widths and alignments of `int` and `bool`
belong to the target and are parameters here. -/

/-- The member types that occur in `struct Person`. -/
inductive CType where
  | int
  | bool
  deriving DecidableEq

/-- The target-dependent width and alignment of each member type. -/
structure ABI where
  sizeof : CType → Nat
  alignof : CType → Nat

/-- The first multiple of `al` that is at least `off`. -/
def alignUp (off al : Nat) : Nat := (off + al - 1) / al * al

/-- The members of `struct Person` in declaration order. -/
def Person_members : List (String × CType) := [("age", CType.int), ("alive", CType.bool)]

/-- Offsets of a member list laid out in declaration order from offset `off`. -/
def layout (abi : ABI) : Nat → List (String × CType) → List (String × Nat)
  | _, [] => []
  | off, (name, ty) :: rest =>
    (name, alignUp off (abi.alignof ty)) ::
      layout abi (alignUp off (abi.alignof ty) + abi.sizeof ty) rest

/-- The offset of a member of `struct Person`. -/
def offsetof (abi : ABI) (member : String) : Option Nat :=
  (layout abi 0 Person_members).lookup member

/-- A target with a 4-byte `int` aligned to 4 and a 1-byte `bool`. -/
def abi_lp64 : ABI :=
  ⟨fun t => match t with | CType.int => 4 | CType.bool => 1,
   fun t => match t with | CType.int => 4 | CType.bool => 1⟩

/-- Reading a run of decimal digits back as a number. -/
def digitsVal (cs : List Char) : Nat :=
  cs.foldl (fun v c => v * 10 + (c.toNat - 48)) 0

/-- Reading a `%d` rendering back: the sign, then the magnitude. -/
def atoi (cs : List Char) : Int :=
  if '-' ∈ cs then -(digitsVal cs.tail : Int) else (digitsVal cs : Int)

/-! ## Facts about the `%d` conversion -/

theorem digitOf_toNat {d : Nat} (h : d < 10) : (digitOf d).toNat = 48 + d := by
  interval_cases d <;> rfl

theorem digitOf_eq_digitChar {d : Nat} (h : d < 10) : digitOf d = Nat.digitChar d := by
  interval_cases d <;> rfl

/-- The digit loop agrees with the one behind the standard decimal rendering of
the library. -/
theorem utoa_eq_toDigitsCore (fuel : Nat) :
    ∀ (n : Nat) (acc : List Char), utoa fuel n acc = Nat.toDigitsCore 10 fuel n acc := by
  induction fuel with
  | zero => intro n acc; rfl
  | succ fuel ih =>
    intro n acc
    rw [utoa, Nat.toDigitsCore]
    by_cases h : n < 10
    · have h0 : n / 10 = 0 := Nat.div_eq_of_lt h
      have h1 : n % 10 = n := Nat.mod_eq_of_lt h
      simp [h, h0, h1, digitOf_eq_digitChar h]
    · have h0 : n / 10 ≠ 0 := by omega
      have h1 : n % 10 < 10 := Nat.mod_lt _ (by decide)
      simp [h, h0, digitOf_eq_digitChar h1, ih]

/-- The `%d` conversion is the standard signed decimal rendering. -/
theorem fmt_d_eq_toString (n : Int) : String.mk (fmt_d n) = toString n := by
  cases n with
  | ofNat m =>
    have h : ¬ ((Int.ofNat m) < 0) := by simp
    simp only [fmt_d, h, if_false, utoa_eq_toDigitsCore]
    rfl
  | negSucc m =>
    have h : Int.negSucc m < 0 := Int.negSucc_lt_zero m
    simp only [fmt_d, h, if_true, utoa_eq_toDigitsCore]
    rfl

/-- The digits are produced in front of the accumulator. -/
theorem utoa_acc (fuel : Nat) :
    ∀ (n : Nat) (acc : List Char), utoa fuel n acc = utoa fuel n [] ++ acc := by
  induction fuel with
  | zero => intro n acc; rfl
  | succ fuel ih =>
    intro n acc
    rw [utoa, utoa]
    by_cases h : n < 10
    · simp [h]
    · simp only [h, if_false]
      rw [ih (n / 10) (digitOf (n % 10) :: acc), ih (n / 10) [digitOf (n % 10)]]
      simp

/-- Every character the digit loop produces is a decimal digit. -/
theorem utoa_digits (fuel : Nat) :
    ∀ (n : Nat) (c : Char), c ∈ utoa fuel n [] → ∃ d, d < 10 ∧ c = digitOf d := by
  induction fuel with
  | zero => intro n c hc; simp [utoa] at hc
  | succ fuel ih =>
    intro n c hc
    rw [utoa] at hc
    by_cases h : n < 10
    · simp only [h, if_true, List.mem_singleton] at hc
      exact ⟨n, h, hc⟩
    · simp only [h, if_false] at hc
      rw [utoa_acc] at hc
      rcases List.mem_append.mp hc with hc | hc
      · exact ih _ _ hc
      · exact ⟨n % 10, Nat.mod_lt _ (by decide), List.mem_singleton.mp hc⟩

theorem digitsVal_snoc (cs : List Char) (c : Char) :
    digitsVal (cs ++ [c]) = digitsVal cs * 10 + (c.toNat - 48) := by
  simp [digitsVal, List.foldl_append]

/-- With enough room for the digits, reading the digit loop back gives the number. -/
theorem digitsVal_utoa (fuel : Nat) :
    ∀ n : Nat, n < fuel → digitsVal (utoa fuel n []) = n := by
  induction fuel with
  | zero => intro n h; omega
  | succ fuel ih =>
    intro n hn
    rw [utoa]
    by_cases h : n < 10
    · simp [h, digitsVal, digitOf_toNat h]
    · simp only [h, if_false]
      rw [utoa_acc, digitsVal_snoc, ih (n / 10) (by omega),
        digitOf_toNat (Nat.mod_lt _ (by decide))]
      omega

theorem minus_not_mem_utoa (fuel n : Nat) : '-' ∉ utoa fuel n [] := by
  intro hc
  obtain ⟨d, hd, he⟩ := utoa_digits fuel n _ hc
  have := congrArg Char.toNat he
  rw [digitOf_toNat hd] at this
  have h45 : ('-').toNat = 45 := rfl
  omega

/-- Reading a `%d` rendering back gives the value rendered. -/
theorem atoi_fmt_d (n : Int) : atoi (fmt_d n) = n := by
  unfold fmt_d atoi
  by_cases h : n < 0
  · simp only [h, if_true, List.mem_cons, true_or, List.tail_cons]
    rw [digitsVal_utoa _ _ (Nat.lt_succ_self _)]
    omega
  · simp only [h, if_false, minus_not_mem_utoa]
    rw [digitsVal_utoa _ _ (Nat.lt_succ_self _)]
    omega

theorem fmt_d_injective {a b : Int} (h : fmt_d a = fmt_d b) : a = b := by
  rw [← atoi_fmt_d a, ← atoi_fmt_d b, h]

/-- A `%d` rendering contains no line terminator. -/
theorem newline_not_mem_fmt_d (n : Int) : '\n' ∉ fmt_d n := by
  have key : ∀ fuel m, '\n' ∉ utoa fuel m [] := by
    intro fuel m hc
    obtain ⟨d, hd, he⟩ := utoa_digits fuel m _ hc
    have := congrArg Char.toNat he
    rw [digitOf_toNat hd] at this
    have h10 : ('\n').toNat = 10 := rfl
    omega
  unfold fmt_d
  split
  · intro hc
    rcases List.mem_cons.mp hc with hc | hc
    · exact absurd hc (by decide)
    · exact key _ _ hc
  · exact key _ _

/-! ## Facts about the calls to `printf` -/

theorem fmt_d_bool (b : Bool) : fmt_d (boolToInt b) = if b then ['1'] else ['0'] := by
  cases b <;> rfl

theorem print_person_data (p : Person) (out : Stdout) :
    (print_person p out).data =
      out.data ++ ("alive person? ".data ++ fmt_d (boolToInt p.alive) ++ ['\n'] ++
        ("Age: ".data ++ fmt_d p.age ++ [' '] ++ fmt_d (boolToInt p.alive) ++ ['\n'])) := by
  have e1 : ∀ v : Int, expand "alive person? %d\n".data [v] =
      "alive person? ".data ++ fmt_d v ++ ['\n'] := fun _ => rfl
  have e2 : ∀ a v : Int, expand "Age: %d %d\n".data [a, v] =
      "Age: ".data ++ (fmt_d a ++ ([' '] ++ (fmt_d v ++ ['\n']))) := fun _ _ => rfl
  simp only [print_person, printf, String.data_append, e1, e2, List.append_assoc]

theorem println_data (n : Int) (out : Stdout) :
    (println n out).2.data = out.data ++ (fmt_d n ++ ['\n']) := by
  have e : expand "%d\n".data [n] = fmt_d n ++ ['\n'] := rfl
  simp only [println, printf, String.data_append, e]

theorem spec_person_text_data (p : Person) :
    (spec_person_text p).data =
      "alive person? ".data ++ fmt_d (boolToInt p.alive) ++ ['\n'] ++
        ("Age: ".data ++ fmt_d p.age ++ [' '] ++ fmt_d (boolToInt p.alive) ++ ['\n']) := by
  have h : (toString p.age).data = fmt_d p.age := by rw [← fmt_d_eq_toString]
  cases hb : p.alive <;>
    simp [spec_person_text, hb, String.data_append, h, fmt_d_bool]

theorem print_person_eq (p : Person) (out : Stdout) :
    print_person p out = out ++ spec_person_text p := by
  apply String.ext
  rw [print_person_data, String.data_append, spec_person_text_data]

theorem lineCount_spec_person_text (p : Person) : lineCount (spec_person_text p) = 2 := by
  have h := newline_not_mem_fmt_d p.age
  have h0 : List.count '\n' (fmt_d p.age) = 0 := List.count_eq_zero.mpr h
  rw [lineCount, spec_person_text_data, fmt_d_bool]
  cases p.alive <;> simp [List.count_append, h0]

theorem alignUp_ge (off al : Nat) (h : 0 < al) : off ≤ alignUp off al := by
  unfold alignUp
  have h1 := Nat.div_add_mod (off + al - 1) al
  have h2 := Nat.mod_lt (off + al - 1) h
  rw [Nat.mul_comm] at h1
  omega

theorem index_arr_some (seq : List Int) (i : Int) (out : Stdout)
    (h0 : 0 ≤ i) (h1 : i < seq.length) :
    ∃ v, seq[i.toNat]? = some v ∧ index_arr seq i out = some (v, seq, out) := by
  have hlt : i.toNat < seq.length := by omega
  refine ⟨seq[i.toNat], List.getElem?_eq_getElem hlt, ?_⟩
  have hneg : ¬ i < 0 := by omega
  simp [index_arr, hneg, List.getElem?_eq_getElem hlt]

/-! ## The claims of the specification -/

/-- C1: for every integer `a` and boolean `b`, `create_person(a, b)` returns a
record whose `age` field is `a` and whose `alive` field is `b`, neither value
transformed, whatever the standard output held before. -/
theorem create_person_fields (a : Int) (b : Bool) (out : Stdout) :
    (create_person a b out).1 = Person.mk a b ∧
      (create_person a b out).1.age = a ∧ (create_person a b out).1.alive = b :=
  ⟨rfl, rfl, rfl⟩

/-- C2: for every record `p`, `print_person(p)` appends to the standard output
exactly the text `alive person? <v>\nAge: <age> <v>\n` of the specification
(`<age>` the signed decimal rendering of `p.age`, `<v>` the digit `1` or `0` of
`p.alive`) and nothing else; for `age = 30`, `alive = true` that text is
`alive person? 1\nAge: 30 1\n`. -/
theorem print_person_text (p : Person) (out : Stdout) :
    print_person p out = out ++ spec_person_text p ∧
      print_person (Person.mk 30 true) out = out ++ "alive person? 1\nAge: 30 1\n" := by
  refine ⟨print_person_eq p out, ?_⟩
  rw [print_person_eq]
  rfl

/-- C3: for every integer `n`, negative values and zero included, `println(n)`
appends exactly one line to the standard output, the signed decimal rendering
of `n` followed by a line terminator, and returns `n`; `println(42)` writes
`42\n` and returns `42`. -/
theorem println_spec (n : Int) (out : Stdout) :
    println n out = (n, out ++ (toString n ++ "\n")) ∧
      lineCount (toString n ++ "\n") = 1 ∧
      println 42 out = (42, out ++ "42\n") := by
  have hgen : ∀ m : Int, println m out = (m, out ++ (toString m ++ "\n")) := by
    intro m
    refine Prod.ext rfl (String.ext ?_)
    rw [println_data, ← fmt_d_eq_toString]
    simp [String.data_append]
  refine ⟨hgen n, ?_, ?_⟩
  · have h0 : List.count '\n' (fmt_d n) = 0 := List.count_eq_zero.mpr (newline_not_mem_fmt_d n)
    rw [lineCount, ← fmt_d_eq_toString]
    simp [String.data_append, List.count_append, h0]
  · rw [hgen 42]
    rfl

/-- C4: for every integer `a` and boolean `b`, what `create_person(a, b)` writes
to the standard output is exactly what `print_person` writes for the record
with `age = a` and `alive = b`, which is also the record returned; that text is
exactly two lines, and it is not the single line that `println` writes. -/
theorem create_person_output (a : Int) (b : Bool) (out : Stdout) :
    create_person a b out = (Person.mk a b, print_person (Person.mk a b) out) ∧
      (∃ t : String, (create_person a b out).2 = out ++ t ∧
        print_person (Person.mk a b) out = out ++ t ∧
        lineCount t = 2 ∧ t.data.getLast? = some '\n') ∧
      (create_person a b out).2 ≠ (println a out).2 := by
  refine ⟨rfl, ⟨spec_person_text (Person.mk a b), print_person_eq _ out, print_person_eq _ out,
    lineCount_spec_person_text _, ?_⟩, ?_⟩
  · rw [spec_person_text_data, ← List.append_assoc, List.getLast?_append]
    rfl
  · intro h
    have hd := congrArg String.data h
    have hc : (create_person a b out).2 = out ++ spec_person_text (Person.mk a b) :=
      print_person_eq _ out
    rw [hc, String.data_append, println_data] at hd
    have h2 := lineCount_spec_person_text (Person.mk a b)
    have h0 : List.count '\n' (fmt_d a) = 0 := List.count_eq_zero.mpr (newline_not_mem_fmt_d a)
    have h1 := congrArg (List.count '\n') (List.append_cancel_left hd)
    rw [lineCount] at h2
    rw [h2] at h1
    simp [List.count_append, h0] at h1

/-- C5, as stated, fails: evaluating `print_person(create_person(30, true))` on
an empty standard output writes four lines, while building the record directly
and printing it writes two. -/
theorem print_created_ne_direct :
    print_created 30 true "" =
        "alive person? 1\nAge: 30 1\nalive person? 1\nAge: 30 1\n" ∧
      print_person (Person.mk 30 true) "" = "alive person? 1\nAge: 30 1\n" ∧
      print_created 30 true "" ≠ print_person (Person.mk 30 true) "" := by
  decide

/-- C5, amended: for every integer `a` and boolean `b`, the text the outer
`print_person` call of `print_person(create_person(a, b))` appends is the text
`print_person` appends for the directly constructed record with fields `a`,
`b`, the two-line text of the specification; the expression as a whole writes
that text twice, four lines in all, `create_person` having printed the record
once already. -/
theorem print_created_twice (a : Int) (b : Bool) (out : Stdout) :
    ∃ t : String, t = spec_person_text (Person.mk a b) ∧
      print_person (Person.mk a b) out = out ++ t ∧
      print_person (create_person a b out).1 (create_person a b out).2 =
        (create_person a b out).2 ++ t ∧
      print_created a b out = out ++ t ++ t ∧
      lineCount t = 2 ∧ lineCount (t ++ t) = 4 := by
  refine ⟨spec_person_text (Person.mk a b), rfl, print_person_eq _ out, print_person_eq _ _,
    ?_, lineCount_spec_person_text _, ?_⟩
  · show print_person (Person.mk a b) (print_person (Person.mk a b) out) = _
    rw [print_person_eq, print_person_eq]
  · have h2 := lineCount_spec_person_text (Person.mk a b)
    rw [lineCount] at h2
    rw [lineCount, String.data_append, List.count_append, h2]

/-- C6: for every sequence `seq` and every offset `i` with `0 ≤ i < length seq`,
`index_arr(seq, i)` returns the element of `seq` at position `i`; the
out-of-range outcome does not occur. -/
theorem index_arr_in_range (seq : List Int) (i : Int) (out : Stdout)
    (h0 : 0 ≤ i) (h1 : i < seq.length) :
    ∃ v, seq[i.toNat]? = some v ∧ (index_arr seq i out).map (fun r => r.1) = some v := by
  obtain ⟨v, hv, h⟩ := index_arr_some seq i out h0 h1
  exact ⟨v, hv, by rw [h]; rfl⟩

/-- C6 at the sequence `[10, 20, 30]` and offset `1`: the result is `20`. -/
theorem index_arr_in_range_witness :
    (0 : Int) ≤ 1 ∧ (1 : Int) < ([10, 20, 30] : List Int).length ∧
      (index_arr [10, 20, 30] 1 "").map (fun r => r.1) = some 20 := by
  refine ⟨by decide, by decide, ?_⟩
  obtain ⟨v, hv, h⟩ := index_arr_in_range [10, 20, 30] 1 "" (by decide) (by decide)
  have h20 : v = 20 := by
    have : ([10, 20, 30] : List Int)[(1 : Int).toNat]? = some 20 := by decide
    rw [this] at hv
    exact (Option.some.inj hv).symm
  rw [h, h20]

/-- C7: `index_arr` has no side effect: for every sequence, every in-range
offset and every prior standard output, after the call the standard output is
what it was and the sequence is what it was. -/
theorem index_arr_no_effect (seq : List Int) (i : Int) (out : Stdout)
    (h0 : 0 ≤ i) (h1 : i < seq.length) :
    (index_arr seq i out).map (fun r => r.2) = some (seq, out) := by
  obtain ⟨v, _, h⟩ := index_arr_some seq i out h0 h1
  rw [h]
  rfl

/-- C7 at the sequence `[10, 20, 30]`, offset `2` and prior output `log\n`. -/
theorem index_arr_no_effect_witness :
    (0 : Int) ≤ 2 ∧ (2 : Int) < ([10, 20, 30] : List Int).length ∧
      (index_arr [10, 20, 30] 2 "log\n").map (fun r => r.2) = some ([10, 20, 30], "log\n") :=
  ⟨by decide, by decide, index_arr_no_effect [10, 20, 30] 2 "log\n" (by decide) (by decide)⟩

/-- C8: no primitive keeps state across calls: for given arguments the value
returned and the text appended to the standard output are the same whatever
the standard output held before, and what it held before is an untouched
beginning of what it holds afterwards (`index_arr` appends nothing, and an
out-of-range read is out of range on every run). -/
theorem no_cross_call_state :
    (∀ p : Person, ∃ t : String, ∀ out : Stdout, print_person p out = out ++ t) ∧
      (∀ (a : Int) (b : Bool), ∃ (r : Person) (t : String), ∀ out : Stdout,
        create_person a b out = (r, out ++ t)) ∧
      (∀ n : Int, ∃ (r : Int) (t : String), ∀ out : Stdout, println n out = (r, out ++ t)) ∧
      (∀ (seq : List Int) (i : Int), ∃ r : Option Int, ∀ out : Stdout,
        index_arr seq i out = r.map (fun v => (v, seq, out))) := by
  refine ⟨fun p => ⟨_, print_person_eq p⟩,
    fun a b => ⟨Person.mk a b, _, fun out => Prod.ext rfl (print_person_eq _ out)⟩,
    fun n => ⟨n, String.mk (expand "%d\n".data [n]), fun out => rfl⟩, ?_⟩
  intro seq i
  by_cases hneg : i < 0
  · exact ⟨none, fun out => by simp [index_arr, hneg]⟩
  · refine ⟨seq[i.toNat]?, fun out => ?_⟩
    cases hv : seq[i.toNat]? <;> simp [index_arr, hneg, hv]

/-- C9: the members of `struct Person` are `age` first, then `alive`: under
every target whose `int` has a positive width and whose `bool` has a positive
alignment, `age` lies at a lower offset than `alive` and ends before `alive`
begins, and a record built positionally from `(x, y)` has `age = x` and
`alive = y`. -/
theorem person_field_order (abi : ABI)
    (hs : 0 < abi.sizeof CType.int) (ha : 0 < abi.alignof CType.bool) :
    (∃ oa ob : Nat, offsetof abi "age" = some oa ∧ offsetof abi "alive" = some ob ∧
        oa + abi.sizeof CType.int ≤ ob ∧ oa < ob) ∧
      Person_members.map Prod.fst = ["age", "alive"] ∧
      ∀ (x : Int) (y : Bool), (Person.mk x y).age = x ∧ (Person.mk x y).alive = y := by
  refine ⟨⟨alignUp 0 (abi.alignof CType.int),
    alignUp (alignUp 0 (abi.alignof CType.int) + abi.sizeof CType.int) (abi.alignof CType.bool),
    ?_, ?_, ?_, ?_⟩, rfl, fun _ _ => ⟨rfl, rfl⟩⟩
  · simp [offsetof, Person_members, layout, List.lookup]
  · have hne : ("alive" == "age") = false := by decide
    simp [offsetof, Person_members, layout, List.lookup, hne]
  · exact alignUp_ge _ _ ha
  · have := alignUp_ge (alignUp 0 (abi.alignof CType.int) + abi.sizeof CType.int) _ ha
    omega

/-- C9 on a target with a 4-byte `int` and a 1-byte `bool`: `age` is at offset
0 and `alive` at offset 4. -/
theorem person_field_order_witness :
    0 < abi_lp64.sizeof CType.int ∧ 0 < abi_lp64.alignof CType.bool ∧
      offsetof abi_lp64 "age" = some 0 ∧ offsetof abi_lp64 "alive" = some 4 ∧
      ((∃ oa ob : Nat, offsetof abi_lp64 "age" = some oa ∧ offsetof abi_lp64 "alive" = some ob ∧
          oa + abi_lp64.sizeof CType.int ≤ ob ∧ oa < ob) ∧
        Person_members.map Prod.fst = ["age", "alive"] ∧
        ∀ (x : Int) (y : Bool), (Person.mk x y).age = x ∧ (Person.mk x y).alive = y) :=
  ⟨by decide, by decide, by decide, by decide,
    person_field_order abi_lp64 (by decide) (by decide)⟩

/-- C10: the text `print_person` writes determines the record: if
`print_person(p)` and `print_person(q)` append the same text to the standard
output, then `p.age = q.age` and `p.alive = q.alive`. -/
theorem print_person_injective (p q : Person) (out₁ out₂ : Stdout) (t : String)
    (hp : print_person p out₁ = out₁ ++ t) (hq : print_person q out₂ = out₂ ++ t) :
    p.age = q.age ∧ p.alive = q.alive := by
  have dp := congrArg String.data hp
  have dq := congrArg String.data hq
  rw [print_person_data, String.data_append] at dp dq
  have e := (List.append_cancel_left dp).trans (List.append_cancel_left dq).symm
  rw [fmt_d_bool, fmt_d_bool] at e
  have hal : p.alive = q.alive := by
    cases hpa : p.alive <;> cases hqa : q.alive <;> simp [hpa, hqa] at e <;> rfl
  refine ⟨?_, hal⟩
  rw [hal] at e
  have e1 := List.append_cancel_left e
  simp only [List.append_assoc] at e1
  have e2 := List.append_cancel_left e1
  exact fmt_d_injective (List.append_cancel_right e2)

/-- C10 at the record with `age = 30`, `alive = true`, printed after two
different prior outputs. -/
theorem print_person_injective_witness :
    print_person (Person.mk 30 true) "" = "" ++ "alive person? 1\nAge: 30 1\n" ∧
      print_person (Person.mk 30 true) "x" = "x" ++ "alive person? 1\nAge: 30 1\n" ∧
      (Person.mk 30 true).age = (Person.mk 30 true).age ∧
      (Person.mk 30 true).alive = (Person.mk 30 true).alive :=
  ⟨by decide, by decide,
    print_person_injective (Person.mk 30 true) (Person.mk 30 true) "" "x"
      "alive person? 1\nAge: 30 1\n" (by decide) (by decide)⟩

end Skipp
